import Mathlib

/-!
Shallow embedding of the portfolio console core: the read-only virtual
filesystem (`src/js/console/ConsoleMode.js`, class `VirtualFileSystem`) and
the command interpreter (`src/js/console/CommandParser.js`, class
`CommandParser`).

Modelling conventions:
* JS strings are Lean `String`s, operated on through their `.data` character
  lists (all content involved is ASCII; `toLowerCase`/`trim`/`split` are
  re-implemented per character so that every definition evaluates by kernel
  reduction).
* JS objects used as ordered string-keyed maps (the `children` maps of the
  tree) are association lists in insertion order, matching the enumeration
  order of `Object.entries` for non-index keys.
* Thrown exceptions are `Except String`; `null`/`undefined` results are
  `Option`.
* JS numbers appearing here are integers (`Nat`/`Int`); the only parse site
  (`parseInt(arg, 10)`) is modelled by `jsParseInt`.
-/

/-- JS whitespace (`\s`) restricted to its ASCII members; used by `trim` and
by the whitespace classes of the tokenizer regex. -/
def isJsSpace (c : Char) : Bool :=
  c = ' ' || c = '\t' || c = '\n' || c = '\r' || c = '\x0b' || c = '\x0c'

/-- `String.prototype.trim`. -/
def jsTrim (s : String) : String :=
  String.mk (((s.data.dropWhile (isJsSpace ·)).reverse.dropWhile (isJsSpace ·)).reverse)

/-- `str.split(sep)` on character lists: all chunks, empty chunks included. -/
def splitChar (sep : Char) : List Char → List (List Char)
  | [] => [[]]
  | c :: rest =>
    match splitChar sep rest with
    | [] => [[]]
    | seg :: segs => if c = sep then [] :: seg :: segs else (c :: seg) :: segs

/-- `path.split('/').filter(p => p.length > 0)` — the segment split used
throughout `VirtualFileSystem` (ConsoleMode.js lines 622, 800-801, 821, 1020). -/
def splitSegments (s : String) : List String :=
  ((splitChar '/' s.data).filter (fun seg => !seg.isEmpty)).map String.mk

/-- `parts.join('/')`. -/
def joinSlash : List String → String
  | [] => ""
  | [s] => s
  | s :: rest => s ++ "/" ++ joinSlash rest

/-- `String.prototype.startsWith`. -/
def strStartsWith (s pre : String) : Bool :=
  pre.data.isPrefixOf s.data

/-- `String.prototype.endsWith`. -/
def strEndsWith (s suf : String) : Bool :=
  suf.data.isSuffixOf s.data

/-- `String.prototype.toLowerCase` (ASCII case mapping). -/
def lowerStr (s : String) : String :=
  String.mk (s.data.map Char.toLower)

/-- The relative-segment loop of `VirtualFileSystem._resolveAbsolutePath`
(ConsoleMode.js lines 803-811): `.` is skipped, `..` pops the last
accumulated segment (`Array.prototype.pop` on an empty array is a no-op,
and `List.dropLast [] = []`), and any other segment is appended. -/
def processSegments (acc : List String) : List String → List String
  | [] => acc
  | p :: rest =>
    if p = "." then processSegments acc rest
    else if p = ".." then processSegments acc.dropLast rest
    else processSegments (acc ++ [p]) rest

/-- `VirtualFileSystem._normalizePath` (ConsoleMode.js lines 820-823). -/
def normalizePath (path : String) : String :=
  "/" ++ joinSlash (splitSegments path)

/-- `VirtualFileSystem._resolveAbsolutePath` (ConsoleMode.js lines 794-814). -/
def resolveAbsolutePath (path cwd : String) : String :=
  if strStartsWith path "/" then normalizePath path
  else "/" ++ joinSlash (processSegments (splitSegments cwd) (splitSegments path))

mutual
/-- A node of the virtual file tree. The source uses one object shape with
optional fields; files never carry `projectId` and directories never carry
`content`/`url`, so the two variants capture exactly the states the builder
in ConsoleMode.js constructs. -/
inductive Node where
  | file (name path content : String) (url : Option String)
  | dir (name path : String) (projectId : Option Nat) (children : NodeList)
deriving DecidableEq
/-- The `children` object of a directory: an insertion-ordered association
list from child key to child node (`Object.entries` enumeration order). -/
inductive NodeList where
  | nil
  | cons (key : String) (node : Node) (rest : NodeList)
deriving DecidableEq
end

/-- `node.name` (for files and directories alike; the root has name `""`). -/
def Node.name : Node → String
  | .file n _ _ _ => n
  | .dir n _ _ _ => n

/-- `node.path`. -/
def Node.path : Node → String
  | .file _ p _ _ => p
  | .dir _ p _ _ => p

/-- `node.type`, the `'file'` / `'directory'` tag string of the source. -/
def Node.type : Node → String
  | .file _ _ _ _ => "file"
  | .dir _ _ _ _ => "directory"

/-- `node.content` for files (`undefined`, i.e. `none`, on directories). -/
def Node.content : Node → Option String
  | .file _ _ c _ => some c
  | .dir _ _ _ _ => none

/-- `node.url` (only ever set on files). -/
def Node.url : Node → Option String
  | .file _ _ _ u => u
  | .dir _ _ _ _ => none

/-- `node.projectId` (only ever set on project directories). -/
def Node.projectId : Node → Option Nat
  | .file _ _ _ _ => none
  | .dir _ _ pid _ => pid

/-- `children[key]` lookup. -/
def NodeList.find (key : String) : NodeList → Option Node
  | .nil => none
  | .cons k n rest => if k = key then some n else NodeList.find key rest

/-- The keys of a `children` object, in insertion order. -/
def NodeList.keys : NodeList → List String
  | .nil => []
  | .cons k _ rest => k :: NodeList.keys rest

/-- The walking loop of `VirtualFileSystem.resolvePath` (ConsoleMode.js
lines 628-637): descend through `children` segment by segment; stepping into
a file or looking up a missing child returns `null` (`none`). -/
def walk : Node → List String → Option Node
  | node, [] => some node
  | node, part :: rest =>
    match node with
    | .file _ _ _ _ => none
    | .dir _ _ _ ch => match ch.find part with
      | none => none
      | some child => walk child rest

/-- `VirtualFileSystem.resolvePath` (ConsoleMode.js lines 616-640), on an
initialized filesystem with root node `root`. The source's early return for
zero segments coincides with `walk root [] = some root`. The source's
default for the `cwd` parameter is `"/"`. -/
def resolvePath (root : Node) (path cwd : String) : Option Node :=
  walk root (splitSegments (resolveAbsolutePath path cwd))

/-- Code-point lexicographic `≤` on character lists. (`localeCompare` in the
source is locale-sensitive in general, but on the names this system
generates — lowercase ASCII letters, digits, `-`, `.` — every common
collation orders identically to code points, so this is the embedding.) -/
def charListLe : List Char → List Char → Bool
  | [], _ => true
  | _ :: _, [] => false
  | a :: as, b :: bs => if a = b then charListLe as bs else decide (a < b)

/-- Stable insertion: `a` is placed before the first `b` with `le a b`.
Processing the original list right-to-left with this insertion yields the
unique stable sort, which is what `Array.prototype.sort` (stable since
ES2019) produces for a consistent comparator. -/
def insertLe {α : Type} (le : α → α → Bool) (a : α) : List α → List α
  | [] => [a]
  | b :: rest => if le a b then a :: b :: rest else b :: insertLe le a rest

/-- Stable sort by the boolean `≤` test `le`. -/
def sortLe {α : Type} (le : α → α → Bool) : List α → List α
  | [] => []
  | a :: rest => insertLe le a (sortLe le rest)

/-- One element of a `listDirectory` result (ConsoleMode.js lines 661-665). -/
structure Entry where
  name : String
  type : String
  path : String
deriving DecidableEq

/-- The entry list built from a `children` object before sorting
(ConsoleMode.js lines 659-666): entry names are the children keys. -/
def entriesOf : NodeList → List Entry
  | .nil => []
  | .cons k n rest => ⟨k, n.type, n.path⟩ :: entriesOf rest

/-- The comparator of `listDirectory` (ConsoleMode.js lines 668-674) as a
`≤` test (`cmp a b ≤ 0`): directories strictly before files; within equal
types, names compared lexicographically (see `charListLe`). -/
def entryLe (a b : Entry) : Bool :=
  if a.type = b.type then charListLe a.name.data b.name.data
  else a.type = "directory"

/-- `VirtualFileSystem.listDirectory` (ConsoleMode.js lines 648-675). -/
def listDirectory (root : Node) (path cwd : String) : Except String (List Entry) :=
  match resolvePath root path cwd with
  | none => .error ("path not found: " ++ path)
  | some (.file _ _ _ _) => .error ("not a directory: " ++ path)
  | some (.dir _ _ _ ch) => .ok (sortLe entryLe (entriesOf ch))

/-- `VirtualFileSystem.readFile` (ConsoleMode.js lines 683-695); the
source's `node.content || ''` is the identity here since file contents are
always strings. -/
def readFile (root : Node) (path cwd : String) : Except String String
  := match resolvePath root path cwd with
  | none => .error ("path not found: " ++ path)
  | some (.dir _ _ _ _) => .error ("not a file: " ++ path)
  | some (.file _ _ c _) => .ok c

/-- `String.prototype.indexOf` on character lists: offset of the first
occurrence of `needle`, `none` when absent (`includes` is `isSome`). -/
def firstIndexOf : List Char → List Char → Option Nat
  | [], needle => if needle.isEmpty then some 0 else none
  | c :: rest, needle =>
    if needle.isPrefixOf (c :: rest) then some 0
    else (firstIndexOf rest needle).map (· + 1)

/-- One search hit (ConsoleMode.js lines 775-779). -/
structure SearchResult where
  path : String
  type : String
  snippet : String
deriving DecidableEq

mutual
/-- `VirtualFileSystem._searchNode` (ConsoleMode.js lines 765-788) as a pure
function returning the results contributed by the subtree at `node`, in the
source's pre-order accumulation order. `term` is the already-lowercased
search term. Only files with truthy (non-empty) content are examined; the
match offset is found in the lowercased content and the snippet is cut from
the original content. -/
def searchNode (node : Node) (term : String) : List SearchResult :=
  match node with
  | .file _ p content _ =>
    if content.data.isEmpty then []
    else
      let lc := lowerStr content
      match firstIndexOf lc.data term.data with
      | none => []
      | some i =>
        let s := i - 50
        let e := min lc.data.length (i + term.data.length + 50)
        let snip := String.mk ((content.data.drop s).take (e - s))
        [⟨p, "file",
          (if 0 < s then "..." else "") ++ snip ++
            (if e < lc.data.length then "..." else "")⟩]
  | .dir _ _ _ ch => searchChildren ch term
/-- The recursion of `_searchNode` over a directory's children. -/
def searchChildren (ch : NodeList) (term : String) : List SearchResult :=
  match ch with
  | .nil => []
  | .cons _ n rest => searchNode n term ++ searchChildren rest term
end

/-- `VirtualFileSystem.search` (ConsoleMode.js lines 748-759). -/
def vfsSearch (root : Node) (keyword : String) : Except String (List SearchResult) :=
  if (jsTrim keyword).data.isEmpty then .error "search keyword required"
  else .ok (searchNode root (lowerStr keyword))

/-- `lines.join('\n')`. -/
def joinNL : List String → String
  | [] => ""
  | [s] => s
  | s :: rest => s ++ "\n" ++ joinNL rest

mutual
/-- `VirtualFileSystem._buildTreeLines` (ConsoleMode.js lines 720-741) as a
pure function returning the lines pushed for the subtree at `node`. -/
def buildTreeLines (node : Node) (pref : String) (isLast : Bool)
    (maxDepth currentDepth : Nat) : List String :=
  if currentDepth > maxDepth then []
  else
    let connector := if isLast then "└── " else "├── "
    let displayName := if node.name.data.isEmpty then "/" else node.name
    let suffix := if node.type = "directory" then "/" else ""
    let own := if currentDepth > 0 then pref ++ connector ++ displayName ++ suffix
      else displayName ++ suffix
    own ::
      (match node with
      | .dir _ _ _ ch =>
        if currentDepth < maxDepth then
          buildChildLines ch
            (if currentDepth = 0 then "" else pref ++ (if isLast then "    " else "│   "))
            maxDepth (currentDepth + 1)
        else []
      | .file _ _ _ _ => [])
/-- The `forEach` over children in `_buildTreeLines`; the last child gets
the closing connector. -/
def buildChildLines (ch : NodeList) (newPref : String)
    (maxDepth currentDepth : Nat) : List String :=
  match ch with
  | .nil => []
  | .cons _ child rest =>
    buildTreeLines child newPref
        (match rest with | .nil => true | .cons _ _ _ => false) maxDepth currentDepth
      ++ buildChildLines rest newPref maxDepth currentDepth
end

/-- `VirtualFileSystem.getTree` (ConsoleMode.js lines 704-714). -/
def getTree (root : Node) (path : String) (depth : Nat) (cwd : String) :
    Except String String :=
  match resolvePath root path cwd with
  | none => .error ("path not found: " ++ path)
  | some node => .ok (joinNL (buildTreeLines node "" true depth 0))

/-- The `[a-z0-9]` character class of `_generateSlug`. -/
def isLowerAlnum (c : Char) : Bool :=
  ('a' ≤ c && c ≤ 'z') || ('0' ≤ c && c ≤ '9')

/-- `.replace(/[^a-z0-9]+/g, '-')`: each maximal run of characters outside
`[a-z0-9]` becomes a single hyphen. The boolean tracks being inside such a
run. -/
def collapseAux : Bool → List Char → List Char
  | _, [] => []
  | inRun, c :: rest =>
    if isLowerAlnum c then c :: collapseAux false rest
    else if inRun then collapseAux true rest
    else '-' :: collapseAux true rest

/-- `VirtualFileSystem._generateSlug` (ConsoleMode.js lines 829-836):
lowercase, take the part before an em-dash, trim, collapse non-`[a-z0-9]`
runs to single hyphens, strip leading/trailing hyphens. -/
def generateSlug (title : String) : String :=
  let lowered := (lowerStr title).data
  let beforeDash := match splitChar '—' lowered with
    | [] => []
    | seg :: _ => seg
  let trimmed :=
    ((beforeDash.dropWhile (isJsSpace ·)).reverse.dropWhile (isJsSpace ·)).reverse
  let collapsed := collapseAux false trimmed
  String.mk (((collapsed.dropWhile (· = '-')).reverse.dropWhile (· = '-')).reverse)

/-- Decimal digits of `n`, most significant first; `fuel ≥ n` always
suffices since the argument at least halves each step. -/
def toDecimalDigitsAux : Nat → Nat → List Nat
  | 0, n => [n % 10]
  | fuel + 1, n => if n < 10 then [n] else toDecimalDigitsAux fuel (n / 10) ++ [n % 10]

/-- Decimal digits of `n`, most significant first. -/
def toDecimalDigits (n : Nat) : List Nat := toDecimalDigitsAux n n

/-- Value of a most-significant-first decimal digit list. -/
def fromDecimalDigits (l : List Nat) : Nat := l.foldl (fun acc d => acc * 10 + d) 0

/-- The character of a decimal digit. -/
def digitChar (d : Nat) : Char := Char.ofNat (48 + d)

/-- Decimal rendering of a natural number — JS template interpolation of a
non-negative integer (`${counter}`, `${index + 1}`, `${results.length}`). -/
def natToStr (n : Nat) : String := String.mk ((toDecimalDigits n).map digitChar)

/-- `parseInt(s, 10)` (CommandParser.js line 215): skip leading whitespace,
optional sign, then take the maximal leading digit run; `NaN` (`none`) when
that run is empty, otherwise its signed value — trailing garbage is
ignored, so `parseInt("2.5", 10) = 2`. -/
def jsParseInt (s : String) : Option Int :=
  let cs := s.data.dropWhile (isJsSpace ·)
  let signed : Bool × List Char := match cs with
    | '-' :: rest => (true, rest)
    | '+' :: rest => (false, rest)
    | _ => (false, cs)
  let digits := signed.2.takeWhile (fun c => c.isDigit)
  if digits.isEmpty then none
  else
    let v : Nat := digits.foldl (fun acc c => acc * 10 + (c.toNat - 48)) 0
    some (if signed.1 then -(v : Int) else (v : Int))

/-- One attachment record of a project (project-data fields used by the
builder). -/
structure Attachment where
  url : String
  caption : String
  alt : String
deriving DecidableEq

/-- `str.replace(pat, '')` for a fixed pattern string: remove the first
occurrence of `pat`, if any. -/
def replaceFirst : List Char → List Char → List Char
  | [], _ => []
  | c :: rest, pat =>
    if pat.isPrefixOf (c :: rest) then (c :: rest).drop pat.length
    else c :: replaceFirst rest pat

/-- Extension selection of `_buildAttachmentsDirectory` (ConsoleMode.js
lines 978-979): `pdf` when the lowercased URL ends in `.pdf`, else `jpg`. -/
def attExt (url : String) : String :=
  if strEndsWith (lowerStr url) ".pdf" then "pdf" else "jpg"

/-- Base-name selection (ConsoleMode.js line 982): the slug of the caption,
with the ordinal fallback for a falsy (empty) caption. -/
def attBase (att : Attachment) (index : Nat) : String :=
  generateSlug (if att.caption.data.isEmpty then "attachment-" ++ natToStr (index + 1)
    else att.caption)

/-- The filename attempted at collision counter `k` (ConsoleMode.js lines
983-990): `k = 0` is the initial `base.ext`; for `k ≥ 1` the source strips
the first occurrence of `.ext` from the original filename and appends
`-k.ext`. -/
def tryAttName (base ext : String) : Nat → String
  | 0 => base ++ "." ++ ext
  | k + 1 =>
    String.mk (replaceFirst (base ++ "." ++ ext).data ("." ++ ext).data) ++
      "-" ++ natToStr (k + 1) ++ "." ++ ext

/-- The collision `while` loop (ConsoleMode.js lines 986-991): starting
from `base.ext`, retry `base-1.ext`, `base-2.ext`, … until the name is not
among the keys `used`; `used.length + 1` attempts always suffice because
the candidates are pairwise distinct, so the fuel never runs out. -/
def freeAttName (used : List String) (base ext : String) : Nat → Nat → String
  | k, 0 => tryAttName base ext k
  | k, fuel + 1 =>
    if tryAttName base ext k ∈ used then freeAttName used base ext (k + 1) fuel
    else tryAttName base ext k

/-- The attachment node content template (ConsoleMode.js line 997). -/
def attNodeContent (att : Attachment) : String :=
  "Attachment: " ++ att.caption ++ "\nType: " ++
    (if strEndsWith (lowerStr att.url) ".pdf" then "PDF Document" else "Image") ++
    "\nURL: " ++ att.url ++ "\n\nUse 'open' command to view."

/-- The per-attachment `forEach` of `_buildAttachmentsDirectory`
(ConsoleMode.js lines 976-1000), building the `children` association list
in insertion order; `used` holds the keys already inserted. -/
def buildAttachmentChildren (slug : String) :
    List Attachment → Nat → List String → NodeList
  | [], _, _ => .nil
  | att :: rest, index, used =>
    let ext := attExt att.url
    let base := attBase att index
    let filename := freeAttName used base ext 0 (used.length + 1)
    .cons filename
      (.file filename ("/projects/" ++ slug ++ "/attachments/" ++ filename)
        (attNodeContent att) (some att.url))
      (buildAttachmentChildren slug rest (index + 1) (used ++ [filename]))

/-- `VirtualFileSystem._buildAttachmentsDirectory` (ConsoleMode.js lines
968-1003), parameterized by the project's attachment list and slug. -/
def buildAttachmentsDirectory (atts : List Attachment) (slug : String) : Node :=
  .dir "attachments" ("/projects/" ++ slug ++ "/attachments") none
    (buildAttachmentChildren slug atts 0 [])

/-- Just the filenames assigned by `buildAttachmentChildren`, in order. -/
def attNamesFrom : List Attachment → Nat → List String → List String
  | [], _, _ => []
  | att :: rest, index, used =>
    let filename := freeAttName used (attBase att index) (attExt att.url) 0
      (used.length + 1)
    filename :: attNamesFrom rest (index + 1) (used ++ [filename])

/-- Split at the first `"` (exclusive): `some (before, after)` when the list
contains a quote. -/
def splitAtQuote : List Char → Option (List Char × List Char)
  | [] => none
  | c :: rest =>
    if c = '"' then some ([], rest)
    else (splitAtQuote rest).map (fun p => (c :: p.1, p.2))

/-- One maximal token of the tokenizer regex `/(?:[^\s"]+|"[^"]*")+/g`
(CommandParser.js line 99) starting at the current position: a maximal
sequence of atoms, each either a nonempty run of non-space non-quote
characters or a complete double-quoted group. Returns the token characters
and the rest of the input; a quote with no closing quote cannot start an
atom, so it ends the token. Every recursive call consumes at least one
character, so the fuel (instantiated with the input length plus one) never
runs out. -/
def takeAtoms : Nat → List Char → List Char × List Char
  | 0, cs => ([], cs)
  | _ + 1, [] => ([], [])
  | fuel + 1, c :: rest =>
    if isJsSpace c then ([], c :: rest)
    else if c = '"' then
      match splitAtQuote rest with
      | some (inside, after) =>
        let p := takeAtoms fuel after
        ('"' :: (inside ++ '"' :: p.1), p.2)
      | none => ([], c :: rest)
    else
      let keep : Char → Bool := fun d => !isJsSpace d && d != '"'
      let p := takeAtoms fuel ((c :: rest).dropWhile keep)
      ((c :: rest).takeWhile keep ++ p.1, p.2)

/-- The global scan of `input.match(/(?:[^\s"]+|"[^"]*")+/g)` (CommandParser.js
line 99): positions where no match can start (whitespace, unmatched quotes)
are skipped; elsewhere a maximal token is taken. Each step consumes at least
one character, so the fuel never runs out. -/
def scanTokens : Nat → List Char → List (List Char)
  | 0, _ => []
  | _ + 1, [] => []
  | fuel + 1, c :: rest =>
    if isJsSpace c then scanTokens fuel rest
    else
      let p := takeAtoms ((c :: rest).length + 1) (c :: rest)
      if p.1.isEmpty then scanTokens fuel rest
      else p.1 :: scanTokens fuel p.2

/-- `arg.replace(/^"|"$/g, '')` (CommandParser.js line 101): remove one
leading double quote, then one trailing double quote from what remains. -/
def stripQuotes (s : String) : String :=
  let l := if s.data.head? = some '"' then s.data.tail else s.data
  String.mk (if l.getLast? = some '"' then l.dropLast else l)

/-- `CommandParser._parseCommand` (CommandParser.js lines 98-104): tokenize;
the first token (or `""`) is the command — quotes kept — and the remaining
tokens, outer quotes stripped, are the arguments. -/
def parseCommand (input : String) : String × List String :=
  let parts := (scanTokens (input.data.length + 1) input.data).map String.mk
  (match parts.head? with | some c => c | none => "",
   (parts.drop 1).map stripQuotes)

/-- `String.prototype.includes`. -/
def strIncludes (s sub : String) : Bool :=
  (firstIndexOf s.data sub.data).isSome

/-- `CommandParser._containsShellFeatures` (CommandParser.js lines 110-113). -/
def containsShellFeatures (input : String) : Bool :=
  ["|", ">", "<", "&&", "||", ";", "`", "$"].any (fun f => strIncludes input f)

/-- The `navigation` payload of a command result (CommandParser.js lines
166-179): record navigation to a project, or external URL navigation. -/
inductive Navigation where
  | project (projectId : Nat)
  | url (url : String)
deriving DecidableEq

/-- The session state owned by `CommandParser` (CommandParser.js lines
17-18): current working directory and append-only history. -/
structure SessionState where
  cwd : String
  history : List String
deriving DecidableEq

/-- A handler's return object; absent fields are falsy (`none` / `false`). -/
structure CmdOut where
  output : String
  navigation : Option Navigation
  exit : Bool
  clear : Bool
deriving DecidableEq

/-- The structured result of one dispatch (CommandParser.js lines 49-92).
The success branch copies `output`, `navigation` and `exit` from the handler
(any `clear` flag is dropped by the source); error branches carry only
`output` and the `error` flag. -/
structure ExecResult where
  output : String
  error : Bool
  navigation : Option Navigation
  exit : Bool
deriving DecidableEq

/-- `CommandParser.cmdList` (CommandParser.js lines 118-137). -/
def cmdList (root : Node) (args : List String) (st : SessionState) :
    Except String (CmdOut × SessionState) :=
  let path := match args.head? with
    | some a => if a.data.isEmpty then "." else a
    | none => "."
  match listDirectory root path st.cwd with
  | .error e => .error e
  | .ok entries =>
    if entries.isEmpty then .ok (⟨"(empty directory)", none, false, false⟩, st)
    else
      .ok (⟨joinNL (entries.map fun e =>
        e.name ++ (if e.type = "directory" then "/" else "")), none, false, false⟩, st)

/-- The parent-directory fallback of `getProjectIdFromPath` (ConsoleMode.js
lines 1019-1025): for a path with first segment `projects` and at least two
segments, the `projectId` of `/projects/<slug>` when that resolves and the
id is truthy. -/
def getProjectIdParts (root : Node) (path : String) : Option Nat :=
  match splitSegments path with
  | p0 :: p1 :: _ =>
    if p0 = "projects" then
      match resolvePath root ("/projects/" ++ p1) "/" with
      | some pn => match pn.projectId with
        | some pid => if pid ≠ 0 then some pid else none
        | none => none
      | none => none
    else none
  | _ => none

/-- `VirtualFileSystem.getProjectIdFromPath` (ConsoleMode.js lines
1010-1028). Both guards in the source are truthiness tests, so an id of `0`
is treated as absent. -/
def getProjectIdFromPath (root : Node) (path : String) : Option Nat :=
  match resolvePath root path "/" with
  | none => none
  | some node =>
    match node.projectId with
    | some pid => if pid ≠ 0 then some pid else getProjectIdParts root path
    | none => getProjectIdParts root path

/-- `CommandParser.cmdOpen` (CommandParser.js lines 142-190): no argument
reports the cwd; a directory becomes the new cwd; a file in a project emits
record navigation; a file with a (truthy) URL emits external navigation;
otherwise the file's content (or an empty-file marker) is returned. -/
def cmdOpen (root : Node) (args : List String) (st : SessionState) :
    Except String (CmdOut × SessionState) :=
  match args.head? with
  | none => .ok (⟨"Current directory: " ++ st.cwd, none, false, false⟩, st)
  | some path =>
    match resolvePath root path st.cwd with
    | none => .error ("path not found: " ++ path)
    | some (.dir _ p _ _) =>
      .ok (⟨"Changed directory to " ++ p, none, false, false⟩, {st with cwd := p})
    | some (.file _ p content url) =>
      match getProjectIdFromPath root p with
      | some pid =>
        .ok (⟨"Opening project: " ++ p, some (.project pid), false, false⟩, st)
      | none =>
        match url with
        | some u =>
          if u.data.isEmpty then
            .ok (⟨(if content.data.isEmpty then "(empty file)" else content),
              none, false, false⟩, st)
          else .ok (⟨"Opening: " ++ p, some (.url u), false, false⟩, st)
        | none =>
          .ok (⟨(if content.data.isEmpty then "(empty file)" else content),
            none, false, false⟩, st)

/-- `CommandParser.cmdRead` (CommandParser.js lines 195-208). -/
def cmdRead (root : Node) (args : List String) (st : SessionState) :
    Except String (CmdOut × SessionState) :=
  match args.head? with
  | none => .error "read requires a file path"
  | some path =>
    match readFile root path st.cwd with
    | .error e => .error e
    | .ok content => .ok (⟨content, none, false, false⟩, st)

/-- `CommandParser.cmdTree` (CommandParser.js lines 213-227): default path
`.`; default depth 3 (also for a falsy — empty — depth argument); a NaN
parse or a value below 1 is rejected before `getTree` is consulted. -/
def cmdTree (root : Node) (args : List String) (st : SessionState) :
    Except String (CmdOut × SessionState) :=
  let path := match args.head? with
    | some a => if a.data.isEmpty then "." else a
    | none => "."
  let depth : Option Int := match args[1]? with
    | some d => if d.data.isEmpty then some 3 else jsParseInt d
    | none => some 3
  match depth with
  | none => .error "tree depth must be a positive number"
  | some v =>
    if v < 1 then .error "tree depth must be a positive number"
    else match getTree root path v.toNat st.cwd with
      | .error e => .error e
      | .ok t => .ok (⟨t, none, false, false⟩, st)

/-- `args.join(' ')`. -/
def joinSpace : List String → String
  | [] => ""
  | [s] => s
  | s :: rest => s ++ " " ++ joinSpace rest

/-- The result-formatting loop of `cmdSearch` (CommandParser.js lines
248-254): a numbered path line and an indented snippet line per result,
with a blank line between results. -/
def searchLines : List SearchResult → Nat → Nat → List String
  | [], _, _ => []
  | r :: rest, i, total =>
    ("[" ++ natToStr (i + 1) ++ "] " ++ r.path) ::
      ("    " ++ r.snippet) ::
      (if i + 1 < total then "" :: searchLines rest (i + 1) total
       else searchLines rest (i + 1) total)

/-- `CommandParser.cmdSearch` (CommandParser.js lines 232-260). -/
def cmdSearch (root : Node) (args : List String) (st : SessionState) :
    Except String (CmdOut × SessionState) :=
  if args.isEmpty then .error "search requires a keyword"
  else
    let keyword := joinSpace args
    match vfsSearch root keyword with
    | .error e => .error e
    | .ok results =>
      if results.isEmpty then
        .ok (⟨"No results found for: " ++ keyword, none, false, false⟩, st)
      else
        .ok (⟨joinNL (("Found " ++ natToStr results.length ++ " result(s) for: " ++
          keyword ++ "\n") :: searchLines results 0 results.length),
          none, false, false⟩, st)

/-- The static help text of `CommandParser.cmdHelp` (CommandParser.js lines
266-305). -/
def helpText : String :=
"Console Mode - Available Commands

NAVIGATION:
  list [path]          List directory contents (alias: ls, dir)
  open <path>          Navigate to directory or open file (alias: cd)
  cwd                  Show current working directory (alias: pwd)

FILE OPERATIONS:
  read <path>          Read file contents (alias: cat)
  tree [path] [depth]  Display tree structure (default depth: 3)

SEARCH:
  search <keyword>     Search for keyword across all content

UTILITY:
  help                 Display this help message
  clear                Clear console output
  exit                 Close console (alias: quit)

PATH NOTATION:
  /                    Root directory
  .                    Current directory
  ..                   Parent directory
  /absolute/path       Absolute path from root
  relative/path        Relative to current directory

FILESYSTEM STRUCTURE:
  /base/               About, contact, resume
  /projects/           Project directories
  /meta/               System information

KEYBOARD SHORTCUTS:
  Ctrl+`               Toggle console
  Ctrl+L               Clear screen
  Esc                  Close console
  ↑/↓                  Navigate command history
  Tab                  Autocomplete (coming soon)

NOTE: This is a read-only portfolio system. Shell features like pipes,
redirection, and command chaining are not supported."

/-- `CommandParser.cmdHelp` (CommandParser.js lines 265-308). -/
def cmdHelp (_root : Node) (_args : List String) (st : SessionState) :
    Except String (CmdOut × SessionState) :=
  .ok (⟨helpText, none, false, false⟩, st)

/-- `CommandParser.cmdClear` (CommandParser.js lines 313-318). -/
def cmdClear (_root : Node) (_args : List String) (st : SessionState) :
    Except String (CmdOut × SessionState) :=
  .ok (⟨"", none, false, true⟩, st)

/-- `CommandParser.cmdCwd` (CommandParser.js lines 323-325). -/
def cmdCwd (_root : Node) (_args : List String) (st : SessionState) :
    Except String (CmdOut × SessionState) :=
  .ok (⟨st.cwd, none, false, false⟩, st)

/-- `CommandParser.cmdExit` (CommandParser.js lines 330-335). -/
def cmdExit (_root : Node) (_args : List String) (st : SessionState) :
    Except String (CmdOut × SessionState) :=
  .ok (⟨"Closing console...", none, true, false⟩, st)

/-- The alias table (CommandParser.js lines 21-28), applied as
`this.aliases[command] || command` (line 68). -/
def resolveAlias (cmd : String) : String :=
  if cmd = "ls" then "list"
  else if cmd = "cd" then "open"
  else if cmd = "cat" then "read"
  else if cmd = "dir" then "list"
  else if cmd = "pwd" then "cwd"
  else if cmd = "quit" then "exit"
  else cmd

/-- The dispatch table (CommandParser.js lines 31-41): canonical command
name to handler; `none` is an unknown command. -/
def findHandler (canonical : String) :
    Option (Node → List String → SessionState → Except String (CmdOut × SessionState)) :=
  if canonical = "list" then some cmdList
  else if canonical = "open" then some cmdOpen
  else if canonical = "read" then some cmdRead
  else if canonical = "tree" then some cmdTree
  else if canonical = "search" then some cmdSearch
  else if canonical = "help" then some cmdHelp
  else if canonical = "clear" then some cmdClear
  else if canonical = "cwd" then some cmdCwd
  else if canonical = "exit" then some cmdExit
  else none

/-- `CommandParser.execute` (CommandParser.js lines 49-92), returning the
structured result with the updated session state. Blank input returns early
before anything is recorded; otherwise the trimmed line is pushed onto
history before the shell gate, alias resolution and dispatch; a thrown
handler error surfaces as an error result with an `Error: ` prefix and the
pre-dispatch state. -/
def execute (root : Node) (st : SessionState) (input : String) :
    ExecResult × SessionState :=
  if (jsTrim input).data.isEmpty then (⟨"", false, none, false⟩, st)
  else
    let trimmed := jsTrim input
    let st1 : SessionState := {st with history := st.history ++ [trimmed]}
    if containsShellFeatures trimmed then
      (⟨"Error: shell features are not supported. This console exposes a read-only portfolio system.",
        true, none, false⟩, st1)
    else
      let pc := parseCommand trimmed
      match findHandler (resolveAlias pc.1) with
      | none =>
        (⟨"Error: unknown command: " ++ pc.1 ++ ". Type 'help' for available commands.",
          true, none, false⟩, st1)
      | some handler =>
        match handler root pc.2 st1 with
        | .ok (out, st2) => (⟨out.output, false, out.navigation, out.exit⟩, st2)
        | .error msg => (⟨"Error: " ++ msg, true, none, false⟩, st1)

/-- The children of the sample project directory `/projects/alpha`: a plain
file and an attachments subdirectory holding a URL-bearing attachment file. -/
def alphaChildren : NodeList :=
  .cons "overview" (.file "overview" "/projects/alpha/overview" "Alpha overview" none)
    (.cons "attachments" (.dir "attachments" "/projects/alpha/attachments" none
        (.cons "shot.jpg" (.file "shot.jpg"
          "/projects/alpha/attachments/shot.jpg" "Attachment: Shot"
          (some "https://example.com/shot.png")) .nil))
      .nil)

/-- A small concrete tree with the node shapes the builder produces, used by
the witness theorems: static files under `/base` (one with a URL), a project
directory with id 7 holding a file and a URL-bearing attachment, and `/meta`. -/
def sampleFS : Node :=
  .dir "" "/" none
    (.cons "base" (.dir "base" "/base" none
        (.cons "about" (.file "about" "/base/about" "About text" none)
          (.cons "resume" (.file "resume" "/base/resume"
            "[Resume Link - Opens in browser]" (some "https://example.com/resume.pdf")) .nil)))
      (.cons "projects" (.dir "projects" "/projects" none
          (.cons "alpha" (.dir "alpha" "/projects/alpha" (some 7) alphaChildren)
            .nil))
        (.cons "meta" (.dir "meta" "/meta" none
            (.cons "version" (.file "version" "/meta/version" "Portfolio v2.0" none) .nil))
          .nil)))

/-- The two-key listing order stated by the specification: directories
strictly before files, and within a common type case-sensitive
(code-point) lexicographic comparison of names. -/
def specEntryOrder (a b : Entry) : Prop :=
  (a.type = "directory" ∧ b.type = "file") ∨
    (a.type = b.type ∧ charListLe a.name.data b.name.data = true)

theorem processSegments_dotdot_step (acc rest : List String) :
    processSegments acc (".." :: rest) = processSegments acc.dropLast rest := by
  simp [processSegments]

theorem processSegments_no_dotdot (parts : List String) :
    ∀ acc, acc.all (fun s => !(s == "..")) = true →
      (processSegments acc parts).all (fun s => !(s == "..")) = true := by
  induction parts with
  | nil => intro acc h; simpa [processSegments] using h
  | cons p rest ih =>
    intro acc h
    by_cases hp : p = "."
    · rw [hp]; simpa [processSegments] using ih acc h
    · by_cases hpp : p = ".."
      · rw [hpp, processSegments_dotdot_step]
        refine ih _ ?_
        rw [List.all_eq_true] at h ⊢
        intro s hs
        exact h s (List.dropLast_subset _ hs)
      · have : processSegments acc (p :: rest) = processSegments (acc ++ [p]) rest := by
          simp [processSegments, hp, hpp]
        rw [this]
        refine ih _ ?_
        rw [List.all_eq_true] at h ⊢
        intro s hs
        rcases List.mem_append.mp hs with h1 | h2
        · exact h s h1
        · simp only [List.mem_singleton] at h2
          subst h2
          simpa using hpp

theorem processSegments_dots (n : Nat) :
    processSegments [] (List.replicate n "..") = [] := by
  induction n with
  | zero => rfl
  | succ m ih => rw [List.replicate_succ, processSegments_dotdot_step]; simpa using ih

theorem joinSlash_cons_cons (s t : String) (rest : List String) :
    joinSlash (s :: t :: rest) = s ++ "/" ++ joinSlash (t :: rest) := rfl

theorem splitChar_not_mem {sep : Char} : ∀ xs : List Char, sep ∉ xs →
    splitChar sep xs = [xs] := by
  intro xs
  induction xs with
  | nil => intro _; rfl
  | cons c rest ih =>
    intro h
    have hc : ¬ c = sep := fun hc => h (hc ▸ List.mem_cons_self c rest)
    have hrest : sep ∉ rest := fun hr => h (List.mem_cons_of_mem c hr)
    simp [splitChar, ih hrest, hc]

theorem splitChar_append_sep {sep : Char} : ∀ xs ys : List Char, sep ∉ xs →
    splitChar sep (xs ++ sep :: ys) = xs :: splitChar sep ys := by
  intro xs
  induction xs with
  | nil =>
    intro ys _
    simp only [List.nil_append]
    cases hsp : splitChar sep ys with
    | nil => simp [splitChar, hsp]
    | cons a b => simp [splitChar, hsp]
  | cons c rest ih =>
    intro ys h
    have hc : ¬ c = sep := fun hc => h (hc ▸ List.mem_cons_self c rest)
    have hrest : sep ∉ rest := fun hr => h (List.mem_cons_of_mem c hr)
    simp [splitChar, ih ys hrest, hc]

theorem splitSegments_dots (n : Nat) :
    splitSegments (joinSlash (List.replicate n "..")) = List.replicate n ".." := by
  induction n with
  | zero => rfl
  | succ m ih =>
    cases m with
    | zero => decide
    | succ k =>
      have h1 : List.replicate (k + 1 + 1) ".." = ".." :: ".." :: List.replicate k ".." := by
        rw [List.replicate_succ, List.replicate_succ]
      have h2 : (".." : String) :: List.replicate k ".." = List.replicate (k + 1) ".." :=
        (List.replicate_succ ".." k).symm
      rw [h1, joinSlash_cons_cons, h2]
      unfold splitSegments
      have hdata : (".." ++ "/" ++ joinSlash (List.replicate (k + 1) "..")).data =
          ['.', '.'] ++ '/' :: (joinSlash (List.replicate (k + 1) "..")).data := by
        rw [String.data_append, String.data_append]
        rfl
      rw [hdata, splitChar_append_sep ['.', '.'] _ (by decide)]
      unfold splitSegments at ih
      simpa using ih

theorem joinSlash_dots_not_absolute (n : Nat) :
    strStartsWith (joinSlash (List.replicate n "..")) "/" = false := by
  cases n with
  | zero => rfl
  | succ m =>
    cases m with
    | zero => decide
    | succ k =>
      have h1 : List.replicate (k + 1 + 1) ".." = ".." :: ".." :: List.replicate k ".." := by
        rw [List.replicate_succ, List.replicate_succ]
      have h2 : (".." : String) :: List.replicate k ".." = List.replicate (k + 1) ".." :=
        (List.replicate_succ ".." k).symm
      rw [h1, joinSlash_cons_cons, h2]
      unfold strStartsWith
      have hdata : (".." ++ "/" ++ joinSlash (List.replicate (k + 1) "..")).data =
          '.' :: ('.' :: '/' :: (joinSlash (List.replicate (k + 1) "..")).data) := by
        rw [String.data_append, String.data_append]
        rfl
      rw [hdata]
      rfl

/-- **C1** (root clamp of path resolution): in the relative-path loop of
`_resolveAbsolutePath`, a `..` segment pops the last accumulated segment,
popping when no segments remain is a no-op, a `..` never survives into the
accumulated segments (so a resolution started from a canonical cwd can never
denote a location above `/`), and resolving any number of chained `..`
segments against cwd `/` yields exactly `/`. -/
theorem root_clamp :
    (∀ acc rest, processSegments acc (".." :: rest) = processSegments acc.dropLast rest) ∧
    (∀ rest, processSegments [] (".." :: rest) = processSegments [] rest) ∧
    (∀ parts acc, acc.all (fun s => !(s == "..")) = true →
      (processSegments acc parts).all (fun s => !(s == "..")) = true) ∧
    (∀ n, resolveAbsolutePath (joinSlash (List.replicate n "..")) "/" = "/") := by
  refine ⟨processSegments_dotdot_step, ?_, ?_, ?_⟩
  · intro rest
    rw [processSegments_dotdot_step]
    rfl
  · intro parts acc h
    exact processSegments_no_dotdot parts acc h
  · intro n
    unfold resolveAbsolutePath
    rw [joinSlash_dots_not_absolute]
    simp only [Bool.false_eq_true, if_false]
    rw [splitSegments_dots]
    have hcwd : splitSegments "/" = [] := by decide
    rw [hcwd, processSegments_dots]
    rfl

/-- Witness for `root_clamp`: a `..` under cwd segments `["a"]` leaves no
`..` in the result, and `../../..` against `/` resolves to `/`. -/
theorem root_clamp_witness :
    ((processSegments ["a"] ["b", ".."]).all (fun s => !(s == "..")) = true) ∧
    resolveAbsolutePath (joinSlash (List.replicate 3 "..")) "/" = "/" :=
  ⟨root_clamp.2.2.1 ["b", ".."] ["a"] (by decide), root_clamp.2.2.2 3⟩

/-- **C4** (resolver totality): `resolvePath` is a total function into
`Option` — absence is the ordinary value `none`, never an exception: a path
whose normal form has zero segments resolves to the root node, walking into
a file yields `none`, and a missing child yields `none`. (The
`FilesystemNotInitialized` guard of the source sits before this logic; the
embedding models the initialized filesystem required by the
initialization barrier, with `root` its root node.) -/
theorem resolver_totality :
    (∀ root path cwd, splitSegments (resolveAbsolutePath path cwd) = [] →
      resolvePath root path cwd = some root) ∧
    (∀ nm p c u seg rest, walk (Node.file nm p c u) (seg :: rest) = none) ∧
    (∀ nm p pid ch seg rest, NodeList.find seg ch = none →
      walk (Node.dir nm p pid ch) (seg :: rest) = none) := by
  refine ⟨?_, ?_, ?_⟩
  · intro root path cwd h
    unfold resolvePath
    rw [h]
    rfl
  · intro nm p c u seg rest
    rfl
  · intro nm p pid ch seg rest h
    simp [walk, h]

/-- Witness for `resolver_totality`: `//` normalizes to zero segments and
resolves to the root; a missing child in an empty directory is `none`. -/
theorem resolver_totality_witness :
    resolvePath sampleFS "//" "/" = some sampleFS ∧
    walk (Node.dir "d" "/d" none .nil) ["missing"] = none :=
  ⟨resolver_totality.1 sampleFS "//" "/" (by decide),
   resolver_totality.2.2 "d" "/d" none .nil "missing" [] (by decide)⟩

/-- **C10** (blank-input no-op): an input that trims to nothing returns the
empty non-error result and leaves the session state — history and cwd —
completely untouched. -/
theorem blank_input_noop (root : Node) (st : SessionState) (input : String)
    (h : (jsTrim input).data.isEmpty = true) :
    execute root st input = (⟨"", false, none, false⟩, st) := by
  unfold execute
  simp [h]

/-- Witness for `blank_input_noop` on a whitespace-only line. -/
theorem blank_input_noop_witness :
    execute sampleFS ⟨"/", ["x"]⟩ "   \t " = (⟨"", false, none, false⟩, ⟨"/", ["x"]⟩) :=
  blank_input_noop sampleFS ⟨"/", ["x"]⟩ "   \t " (by decide)

/-- **C5** (shell-syntax rejection gate): an input whose trimmed form
contains one of the disallowed shell substrings is answered by the fixed
`UnsupportedShellSyntax` error result — independent of the tokenizer, the
alias table and every handler, which the definition of `execute` never
reaches on this branch — and the only state change is the history append. -/
theorem shell_syntax_rejected (root : Node) (st : SessionState) (input : String)
    (hne : (jsTrim input).data.isEmpty = false)
    (hshell : containsShellFeatures (jsTrim input) = true) :
    execute root st input =
      (⟨"Error: shell features are not supported. This console exposes a read-only portfolio system.",
        true, none, false⟩,
       ⟨st.cwd, st.history ++ [jsTrim input]⟩) := by
  unfold execute
  simp [hne, hshell]

/-- Witness for `shell_syntax_rejected`: the specification's example
`"ls | grep x"` is rejected and recorded in history. -/
theorem shell_syntax_rejected_witness :
    execute sampleFS ⟨"/", []⟩ "ls | grep x" =
      (⟨"Error: shell features are not supported. This console exposes a read-only portfolio system.",
        true, none, false⟩, ⟨"/", ["ls | grep x"]⟩) :=
  (shell_syntax_rejected sampleFS ⟨"/", []⟩ "ls | grep x" (by decide) (by decide)).trans
    (by decide)

theorem handler_ok_history (c : String)
    (h : Node → List String → SessionState → Except String (CmdOut × SessionState))
    (hfind : findHandler c = some h) (root : Node) (args : List String)
    (st : SessionState) (out : CmdOut) (st2 : SessionState)
    (hok : h root args st = .ok (out, st2)) :
    st2.history = st.history := by
  unfold findHandler at hfind
  split_ifs at hfind <;>
    first
      | (injection hfind with hh
         subst hh
         simp only [cmdList, cmdOpen, cmdRead, cmdTree, cmdSearch, cmdHelp, cmdClear,
           cmdCwd, cmdExit] at hok
         repeat' split at hok
         all_goals
           first
             | exact Except.noConfusion hok
             | (simp only [Except.ok.injEq, Prod.mk.injEq] at hok
                rw [← hok.2]))

/-- **C2**, amended (command-dispatch atomicity): for every non-blank input
line and every session state, the *trimmed* input line — not the raw line,
see the counterexample — is appended to history exactly once, before and
regardless of the dispatch outcome (shell-rejected, unknown, failing and
successful commands alike), and whenever the result is an error the current
working directory is unchanged. -/
theorem dispatch_atomicity (root : Node) (st : SessionState) (input : String)
    (hne : (jsTrim input).data.isEmpty = false) :
    (execute root st input).2.history = st.history ++ [jsTrim input] ∧
    ((execute root st input).1.error = true → (execute root st input).2.cwd = st.cwd) := by
  unfold execute
  simp only [hne, Bool.false_eq_true, if_false]
  split
  · exact ⟨rfl, fun _ => rfl⟩
  · split
    · exact ⟨rfl, fun _ => rfl⟩
    · rename_i handler hfind
      split
      · rename_i out st2 hok
        refine ⟨?_, ?_⟩
        · exact handler_ok_history _ handler hfind root _ _ out st2 hok
        · intro hfalse
          exact absurd hfalse (by simp)
      · exact ⟨rfl, fun _ => rfl⟩

/-- **C2**, counterexample to the claim as stated: the raw input `" help"`
is *not* what is appended to history — the trimmed `"help"` is. -/
theorem history_trimmed_counterexample :
    (execute sampleFS ⟨"/", []⟩ " help").2.history = ["help"] ∧
    (" help" : String) ≠ "help" := by
  exact ⟨by decide, by decide⟩

/-- Witness for `dispatch_atomicity`: a failing `read` of a missing path is
recorded in history and leaves the cwd unchanged. -/
theorem dispatch_atomicity_witness :
    (execute sampleFS ⟨"/", []⟩ "read /nope").2.history = [] ++ [jsTrim "read /nope"] ∧
    ((execute sampleFS ⟨"/", []⟩ "read /nope").1.error = true →
      (execute sampleFS ⟨"/", []⟩ "read /nope").2.cwd = "/") :=
  dispatch_atomicity sampleFS ⟨"/", []⟩ "read /nope" (by decide)

theorem insertLe_perm {α : Type} (le : α → α → Bool) (a : α) (l : List α) :
    (insertLe le a l).Perm (a :: l) := by
  induction l with
  | nil => exact List.Perm.refl _
  | cons b rest ih =>
    by_cases h : le a b = true
    · simp [insertLe, h]
    · simp only [insertLe, h, if_false]
      exact (ih.cons b).trans (List.Perm.swap a b rest)

theorem sortLe_perm {α : Type} (le : α → α → Bool) (l : List α) :
    (sortLe le l).Perm l := by
  induction l with
  | nil => exact List.Perm.refl _
  | cons a rest ih => exact (insertLe_perm le a (sortLe le rest)).trans (ih.cons a)

theorem charListLe_total : ∀ x y : List Char, (charListLe x y || charListLe y x) = true := by
  intro x
  induction x with
  | nil => intro y; simp [charListLe]
  | cons a as ih =>
    intro y
    cases y with
    | nil => simp [charListLe]
    | cons b bs =>
      by_cases hab : a = b
      · subst hab
        simpa [charListLe] using ih bs
      · rcases lt_or_gt_of_ne hab with h | h
        · simp [charListLe, hab, h]
        · have h1 : ¬ a < b := not_lt_of_gt h
          simp [charListLe, hab, Ne.symm hab, h, h1]

theorem charListLe_trans : ∀ x y z : List Char,
    charListLe x y = true → charListLe y z = true → charListLe x z = true := by
  intro x
  induction x with
  | nil => intro y z _ _; simp [charListLe]
  | cons a as ih =>
    intro y z hxy hyz
    cases y with
    | nil => simp [charListLe] at hxy
    | cons b bs =>
      cases z with
      | nil => simp [charListLe] at hyz
      | cons c cs =>
        by_cases hab : a = b
        · subst hab
          by_cases hac : a = c
          · subst hac
            simp only [charListLe, if_pos rfl] at hxy hyz ⊢
            exact ih bs cs hxy hyz
          · simp only [charListLe, if_pos rfl] at hxy
            simp only [charListLe, if_neg hac] at hyz ⊢
            exact hyz
        · by_cases hbc : b = c
          · subst hbc
            simp only [charListLe, if_neg hab] at hxy ⊢
            exact hxy
          · simp only [charListLe, if_neg hab] at hxy
            simp only [charListLe, if_neg hbc] at hyz
            have hlt : a < c := lt_trans (of_decide_eq_true hxy) (of_decide_eq_true hyz)
            simp only [charListLe, if_neg (ne_of_lt hlt)]
            exact decide_eq_true hlt

theorem entryLe_trans : ∀ x y z : Entry,
    entryLe x y = true → entryLe y z = true → entryLe x z = true := by
  intro x y z h1 h2
  unfold entryLe at h1 h2 ⊢
  by_cases hxy : x.type = y.type
  · by_cases hyz : y.type = z.type
    · rw [if_pos hxy] at h1
      rw [if_pos hyz] at h2
      rw [if_pos (hxy.trans hyz)]
      exact charListLe_trans _ _ _ h1 h2
    · rw [if_neg hyz] at h2
      have hy : y.type = "directory" := of_decide_eq_true h2
      have hx : x.type = "directory" := hxy.trans hy
      have hxz : ¬ x.type = z.type := fun h => hyz ((hxy.symm.trans h))
      rw [if_neg hxz]
      exact decide_eq_true hx
  · rw [if_neg hxy] at h1
    have hx : x.type = "directory" := of_decide_eq_true h1
    by_cases hyz : y.type = z.type
    · have hxz : ¬ x.type = z.type := fun h => hxy (h.trans hyz.symm)
      rw [if_neg hxz]
      exact decide_eq_true hx
    · rw [if_neg hyz] at h2
      have hy : y.type = "directory" := of_decide_eq_true h2
      exact absurd (hx.trans hy.symm) hxy

theorem entryLe_total (a b : Entry)
    (ha : a.type = "directory" ∨ a.type = "file")
    (hb : b.type = "directory" ∨ b.type = "file") :
    entryLe a b = true ∨ entryLe b a = true := by
  unfold entryLe
  by_cases hab : a.type = b.type
  · rw [if_pos hab, if_pos hab.symm]
    exact Bool.or_eq_true_iff.mp (charListLe_total a.name.data b.name.data)
  · rw [if_neg hab, if_neg (fun h => hab h.symm)]
    rcases ha with ha | ha
    · exact Or.inl (decide_eq_true ha)
    · rcases hb with hb | hb
      · exact Or.inr (decide_eq_true hb)
      · exact absurd (ha.trans hb.symm) hab

theorem entriesOf_type (ch : NodeList) :
    ∀ e ∈ entriesOf ch, e.type = "directory" ∨ e.type = "file" :=
  @NodeList.rec (fun _ => True)
    (fun ch => ∀ e ∈ entriesOf ch, e.type = "directory" ∨ e.type = "file")
    (fun _ _ _ _ => trivial) (fun _ _ _ _ _ => trivial)
    (by intro e he; simp [entriesOf] at he)
    (by
      intro k n rest _ ih e he
      simp only [entriesOf, List.mem_cons] at he
      rcases he with he | he
      · subst he
        cases n with
        | file nm p c u => exact Or.inr rfl
        | dir nm p pid c => exact Or.inl rfl
      · exact ih e he)
    ch

theorem pairwise_insertLe {α : Type} (le : α → α → Bool) (a : α) (l : List α)
    (htrans : ∀ x y z, le x y = true → le y z = true → le x z = true)
    (htot : ∀ b ∈ l, le a b = true ∨ le b a = true)
    (hl : l.Pairwise (fun x y => le x y = true)) :
    (insertLe le a l).Pairwise (fun x y => le x y = true) := by
  induction l with
  | nil => simp [insertLe]
  | cons b rest ih =>
    rcases List.pairwise_cons.mp hl with ⟨hb, hrest⟩
    by_cases hab : le a b = true
    · simp only [insertLe, hab, if_true]
      refine List.pairwise_cons.mpr ⟨?_, List.pairwise_cons.mpr ⟨hb, hrest⟩⟩
      intro x hx
      rcases List.mem_cons.mp hx with hx | hx
      · subst hx; exact hab
      · exact htrans a b x hab (hb x hx)
    · have hba : le b a = true := by
        rcases htot b (List.mem_cons_self b rest) with h | h
        · exact absurd h hab
        · exact h
      simp only [insertLe, hab, if_false]
      refine List.pairwise_cons.mpr
        ⟨?_, ih (fun x hx => htot x (List.mem_cons_of_mem b hx)) hrest⟩
      intro x hx
      have hx2 : x = a ∨ x ∈ rest := by
        simpa using (insertLe_perm le a rest).mem_iff.mp hx
      rcases hx2 with rfl | hx2
      · exact hba
      · exact hb x hx2

theorem pairwise_sortLe {α : Type} (le : α → α → Bool) (l : List α)
    (htrans : ∀ x y z, le x y = true → le y z = true → le x z = true)
    (htot : ∀ x ∈ l, ∀ y ∈ l, le x y = true ∨ le y x = true) :
    (sortLe le l).Pairwise (fun x y => le x y = true) := by
  induction l with
  | nil => simp [sortLe]
  | cons a rest ih =>
    simp only [sortLe]
    refine pairwise_insertLe le a (sortLe le rest) htrans ?_
      (ih (fun x hx y hy =>
        htot x (List.mem_cons_of_mem _ hx) y (List.mem_cons_of_mem _ hy)))
    intro b hb
    have hbr : b ∈ rest := (sortLe_perm le rest).subset hb
    exact htot a (List.mem_cons_self _ _) b (List.mem_cons_of_mem _ hbr)

theorem entryLe_spec (a b : Entry)
    (hb : b.type = "directory" ∨ b.type = "file")
    (h : entryLe a b = true) : specEntryOrder a b := by
  unfold entryLe at h
  unfold specEntryOrder
  by_cases hab : a.type = b.type
  · right
    refine ⟨hab, ?_⟩
    rwa [if_pos hab] at h
  · left
    rw [if_neg hab] at h
    have hx : a.type = "directory" := of_decide_eq_true h
    refine ⟨hx, ?_⟩
    rcases hb with hbd | hbf
    · exact absurd (hx.trans hbd.symm) hab
    · exact hbf

/-- **C3** (listing order and type guard): when a path resolves to a
directory, `listDirectory` returns exactly the stable sort of its children
entries — a permutation of the children, pairwise ordered by the two-key
specification order (directories strictly before files, names in
case-sensitive lexicographic order within a type) — and when the path
resolves to a file it fails with the `NotADirectory` error. -/
theorem listing_order :
    (∀ root path cwd nm p pid ch,
      resolvePath root path cwd = some (.dir nm p pid ch) →
      listDirectory root path cwd = .ok (sortLe entryLe (entriesOf ch)) ∧
      (sortLe entryLe (entriesOf ch)).Perm (entriesOf ch) ∧
      (sortLe entryLe (entriesOf ch)).Pairwise specEntryOrder) ∧
    (∀ root path cwd nm p c u,
      resolvePath root path cwd = some (.file nm p c u) →
      listDirectory root path cwd = .error ("not a directory: " ++ path)) := by
  constructor
  · intro root path cwd nm p pid ch hres
    refine ⟨?_, sortLe_perm _ _, ?_⟩
    · unfold listDirectory
      rw [hres]
    · have hp := pairwise_sortLe entryLe (entriesOf ch) entryLe_trans
        (fun x hx y hy => entryLe_total x y (entriesOf_type ch x hx) (entriesOf_type ch y hy))
      refine hp.imp_of_mem ?_
      intro x y _ hy h
      exact entryLe_spec x y (entriesOf_type ch y ((sortLe_perm _ _).subset hy)) h
  · intro root path cwd nm p c u hres
    unfold listDirectory
    rw [hres]

/-- Witness for `listing_order`: the project directory `/projects/alpha`
lists its subdirectory before its file, and listing the file `/base/about`
is a `NotADirectory` error. -/
theorem listing_order_witness :
    (listDirectory sampleFS "/projects/alpha" "/" = .ok (sortLe entryLe (entriesOf alphaChildren)) ∧
      (sortLe entryLe (entriesOf alphaChildren)).Perm (entriesOf alphaChildren) ∧
      (sortLe entryLe (entriesOf alphaChildren)).Pairwise specEntryOrder) ∧
    listDirectory sampleFS "/base/about" "/" = .error "not a directory: /base/about" :=
  ⟨listing_order.1 sampleFS "/projects/alpha" "/" "alpha" "/projects/alpha" (some 7)
      alphaChildren (by decide),
   listing_order.2 sampleFS "/base/about" "/" "about" "/base/about" "About text" none
      (by decide)⟩

theorem searchNode_file_type (node : Node) :
    ∀ term r, r ∈ searchNode node term → r.type = "file" :=
  @Node.rec (fun n => ∀ term r, r ∈ searchNode n term → r.type = "file")
    (fun ch => ∀ term r, r ∈ searchChildren ch term → r.type = "file")
    (by
      intro nm p content url term r hr
      simp only [searchNode] at hr
      split at hr
      · simp at hr
      · split at hr
        · simp at hr
        · simp only [List.mem_singleton] at hr
          subst hr
          rfl)
    (by
      intro nm p pid ch ih term r hr
      simp only [searchNode] at hr
      exact ih term r hr)
    (by intro term r hr; simp [searchChildren] at hr)
    (by
      intro k n rest ihn ihrest term r hr
      simp only [searchChildren, List.mem_append] at hr
      rcases hr with h | h
      · exact ihn term r h
      · exact ihrest term r h)
    node

/-- **C6** (search snippet extraction): a file whose lowercased content
contains the lowercased keyword at first offset `i` yields exactly one
result whose snippet is the window of 50 characters before and after the
match (clipped to the content boundaries — note `i - 50` is truncated
natural subtraction), cut from the *original* content, with `...` prepended
exactly when the window starts after the beginning and appended exactly
when it ends before the end; a file without a match yields nothing; a
directory yields exactly what its children yield (never an entry of its
own), and indeed every result anywhere is a file result. -/
theorem search_snippet :
    (∀ nm p content url keyword i,
      content.data.isEmpty = false →
      firstIndexOf (lowerStr content).data (lowerStr keyword).data = some i →
      searchNode (.file nm p content url) (lowerStr keyword) =
        [⟨p, "file",
          (if 0 < i - 50 then "..." else "") ++
            String.mk ((content.data.drop (i - 50)).take
              (min content.data.length (i + (lowerStr keyword).data.length + 50) - (i - 50))) ++
            (if min content.data.length (i + (lowerStr keyword).data.length + 50) <
                content.data.length then "..." else "")⟩]) ∧
    (∀ nm p content url term,
      firstIndexOf (lowerStr content).data term.data = none →
      searchNode (.file nm p content url) term = []) ∧
    (∀ nm p pid ch term, searchNode (.dir nm p pid ch) term = searchChildren ch term) ∧
    (∀ node term r, r ∈ searchNode node term → r.type = "file") := by
  have hlen : ∀ s : String, (lowerStr s).data.length = s.data.length := by
    intro s
    simp [lowerStr]
  refine ⟨?_, ?_, ?_, searchNode_file_type⟩
  · intro nm p content url keyword i hne hfi
    simp only [searchNode, hne, Bool.false_eq_true, if_false, hfi, hlen]
  · intro nm p content url term hfi
    simp only [searchNode, hfi]
    split
    · rfl
    · rfl
  · intro nm p pid ch term
    rfl

/-- Witness for `search_snippet`: the record containing `"About"` is found
by the lowercased keyword `"about"` with the full (short) content as the
snippet, no ellipses. -/
theorem search_snippet_witness :
    searchNode (.file "about" "/base/about" "About text" none) (lowerStr "about") =
      [⟨"/base/about", "file", "About text"⟩] :=
  (search_snippet.1 "about" "/base/about" "About text" none "about" 0
      (by decide) (by decide)).trans (by decide)

theorem jsParseInt_empty (d : String) (h : d.data = []) : jsParseInt d = none := by
  simp [jsParseInt, h]

/-- **C7**, amended (tree depth validation): the depth argument is accepted
or rejected by `parseInt(arg, 10)` — a parse yielding NaN (`none`) or a
value below 1 is an `InvalidDepth` error raised before `getTree` is ever
consulted (the error is produced for every root and path alike), while any
argument whose *leading digit run* parses to an integer `≥ 1` proceeds to
rendering. This differs from the claim as stated: a non-numeric argument
with a positive-integer prefix, such as `"2.5"` or `"3x"`, is not rejected
— see the counterexample. -/
theorem tree_depth_validation :
    (∀ root st p d, d.data.isEmpty = false → jsParseInt d = none →
      cmdTree root [p, d] st = .error "tree depth must be a positive number") ∧
    (∀ root st p d v, jsParseInt d = some v → v < 1 →
      cmdTree root [p, d] st = .error "tree depth must be a positive number") ∧
    (∀ root st p d v, d.data.isEmpty = false → jsParseInt d = some v → 1 ≤ v →
      cmdTree root [p, d] st =
        (match getTree root (if p.data.isEmpty then "." else p) v.toNat st.cwd with
          | .error e => .error e
          | .ok t => .ok (⟨t, none, false, false⟩, st))) := by
  refine ⟨?_, ?_, ?_⟩
  · intro root st p d hne hparse
    simp only [cmdTree, List.head?_cons, List.getElem?_cons_succ, List.getElem?_cons_zero,
      hne, Bool.false_eq_true, if_false, hparse]
  · intro root st p d v hparse hlt
    by_cases hd : d.data.isEmpty = true
    · exact absurd hparse (by simp [jsParseInt_empty d (List.isEmpty_iff.mp hd)])
    · rw [Bool.not_eq_true] at hd
      simp only [cmdTree, List.head?_cons, List.getElem?_cons_succ, List.getElem?_cons_zero,
        hd, Bool.false_eq_true, if_false, hparse, if_pos hlt]
  · intro root st p d v hne hparse hge
    have hlt : ¬ v < 1 := not_lt.mpr hge
    simp only [cmdTree, List.head?_cons, List.getElem?_cons_succ, List.getElem?_cons_zero,
      hne, Bool.false_eq_true, if_false, hparse, if_neg hlt]

/-- **C7**, counterexample to the claim as stated: the depth argument
`"2.5"` is not a positive integer (it is not even a digit string), yet the
tree command succeeds — `parseInt` truncates it to `2` — instead of raising
an `InvalidDepth` error. -/
theorem tree_depth_validation_counterexample :
    ("2.5".data.all Char.isDigit = false) ∧ jsParseInt "2.5" = some 2 ∧
    cmdTree sampleFS ["/", "2.5"] ⟨"/", []⟩ =
      .ok (⟨"//\n├── base/\n│   ├── about\n│   └── resume\n├── projects/\n│   └── alpha/\n└── meta/\n    └── version",
        none, false, false⟩, ⟨"/", []⟩) :=
  ⟨by decide, by decide, by rfl⟩

/-- Witness for `tree_depth_validation`: `"xyz"` (NaN) and `"0"`
(non-positive) are rejected before rendering; `"1"` proceeds to `getTree`. -/
theorem tree_depth_validation_witness :
    cmdTree sampleFS ["/", "xyz"] ⟨"/", []⟩ = .error "tree depth must be a positive number" ∧
    cmdTree sampleFS ["/", "0"] ⟨"/", []⟩ = .error "tree depth must be a positive number" ∧
    cmdTree sampleFS ["/", "1"] ⟨"/", []⟩ =
      (match getTree sampleFS (if ("/" : String).data.isEmpty then "." else "/")
          ((1 : Int)).toNat (SessionState.mk "/" []).cwd with
        | .error e => .error e
        | .ok t => .ok (⟨t, none, false, false⟩, ⟨"/", []⟩)) :=
  ⟨tree_depth_validation.1 sampleFS ⟨"/", []⟩ "/" "xyz" (by decide) (by decide),
   tree_depth_validation.2.1 sampleFS ⟨"/", []⟩ "/" "0" 0 (by decide) (by decide),
   tree_depth_validation.2.2 sampleFS ⟨"/", []⟩ "/" "1" 1 (by decide) (by decide) (by decide)⟩

theorem getProjectIdParts_none (root : Node) (path : String)
    (h : ∀ slug rest, splitSegments path ≠ "projects" :: slug :: rest) :
    getProjectIdParts root path = none := by
  unfold getProjectIdParts
  cases hsp : splitSegments path with
  | nil => rfl
  | cons p0 rest0 =>
    cases rest0 with
    | nil => rfl
    | cons p1 rest1 =>
      by_cases hp : p0 = "projects"
      · exact absurd (hp ▸ hsp) (h p1 rest1)
      · simp [hp]

/-- **C9** (open-intent precedence): opening a file whose stored path lies
under `/projects/<slug>/…` emits record navigation carrying the (truthy)
project id of `/projects/<slug>` — even when the file also carries an
external URL, as attachments do; URL navigation is emitted for a
(truthy-)URL-bearing file only outside project directories; and a file with
neither association returns its content. The second resolution hypothesis
says the file's stored `path` field resolves back to the file itself, which
holds for every tree the builder constructs. -/
theorem open_intent_precedence :
    (∀ root st path nm fpath content url slug rest dn dp pid dch,
      resolvePath root path st.cwd = some (.file nm fpath content url) →
      resolvePath root fpath "/" = some (.file nm fpath content url) →
      splitSegments fpath = "projects" :: slug :: rest →
      resolvePath root ("/projects/" ++ slug) "/" = some (.dir dn dp (some pid) dch) →
      pid ≠ 0 →
      cmdOpen root [path] st =
        .ok (⟨"Opening project: " ++ fpath, some (.project pid), false, false⟩, st)) ∧
    (∀ root st path nm fpath content u,
      resolvePath root path st.cwd = some (.file nm fpath content (some u)) →
      resolvePath root fpath "/" = some (.file nm fpath content (some u)) →
      (∀ slug rest, splitSegments fpath ≠ "projects" :: slug :: rest) →
      u.data.isEmpty = false →
      cmdOpen root [path] st =
        .ok (⟨"Opening: " ++ fpath, some (.url u), false, false⟩, st)) ∧
    (∀ root st path nm fpath content,
      resolvePath root path st.cwd = some (.file nm fpath content none) →
      resolvePath root fpath "/" = some (.file nm fpath content none) →
      (∀ slug rest, splitSegments fpath ≠ "projects" :: slug :: rest) →
      cmdOpen root [path] st =
        .ok (⟨(if content.data.isEmpty then "(empty file)" else content),
          none, false, false⟩, st)) := by
  refine ⟨?_, ?_, ?_⟩
  · intro root st path nm fpath content url slug rest dn dp pid dch h1 h2 hsp h3 hpid
    have hgp : getProjectIdFromPath root fpath = some pid := by
      unfold getProjectIdFromPath
      rw [h2]
      simp only [Node.projectId]
      unfold getProjectIdParts
      rw [hsp]
      simp only [if_pos rfl, h3, Node.projectId, hpid]
      simp [hpid]
    simp only [cmdOpen, List.head?_cons, h1, hgp]
  · intro root st path nm fpath content u h1 h2 hno hu
    have hgp : getProjectIdFromPath root fpath = none := by
      unfold getProjectIdFromPath
      rw [h2]
      simp only [Node.projectId]
      exact getProjectIdParts_none root fpath hno
    simp only [cmdOpen, List.head?_cons, h1, hgp, hu, Bool.false_eq_true, if_false]
  · intro root st path nm fpath content h1 h2 hno
    have hgp : getProjectIdFromPath root fpath = none := by
      unfold getProjectIdFromPath
      rw [h2]
      simp only [Node.projectId]
      exact getProjectIdParts_none root fpath hno
    simp only [cmdOpen, List.head?_cons, h1, hgp]

/-- Witness for `open_intent_precedence` on the sample tree: the attachment
file emits record navigation to project 7 despite its URL, `/base/resume`
emits URL navigation, and `/base/about` returns its content. -/
theorem open_intent_precedence_witness :
    cmdOpen sampleFS ["/projects/alpha/attachments/shot.jpg"] ⟨"/", []⟩ =
      .ok (⟨"Opening project: /projects/alpha/attachments/shot.jpg",
        some (.project 7), false, false⟩, ⟨"/", []⟩) ∧
    cmdOpen sampleFS ["/base/resume"] ⟨"/", []⟩ =
      .ok (⟨"Opening: /base/resume",
        some (.url "https://example.com/resume.pdf"), false, false⟩, ⟨"/", []⟩) ∧
    cmdOpen sampleFS ["/base/about"] ⟨"/", []⟩ =
      .ok (⟨(if ("About text" : String).data.isEmpty then "(empty file)" else "About text"),
        none, false, false⟩, ⟨"/", []⟩) :=
  ⟨open_intent_precedence.1 sampleFS ⟨"/", []⟩ "/projects/alpha/attachments/shot.jpg"
      "shot.jpg" "/projects/alpha/attachments/shot.jpg" "Attachment: Shot"
      (some "https://example.com/shot.png") "alpha" ["attachments", "shot.jpg"]
      "alpha" "/projects/alpha" 7 alphaChildren
      (by decide) (by decide) (by decide) (by decide) (by decide),
   open_intent_precedence.2.1 sampleFS ⟨"/", []⟩ "/base/resume" "resume" "/base/resume"
      "[Resume Link - Opens in browser]" "https://example.com/resume.pdf"
      (by decide) (by decide)
      (by
        intro s r h
        rw [show splitSegments "/base/resume" = ["base", "resume"] from by decide] at h
        simp at h)
      (by decide),
   open_intent_precedence.2.2 sampleFS ⟨"/", []⟩ "/base/about" "about" "/base/about"
      "About text"
      (by decide) (by decide)
      (by
        intro s r h
        rw [show splitSegments "/base/about" = ["base", "about"] from by decide] at h
        simp at h)⟩

theorem nodup_subset_length {α : Type} [DecidableEq α] (l l2 : List α)
    (h : l.Nodup) (hs : l ⊆ l2) : l.length ≤ l2.length := by
  have h1 : l.toFinset.card = l.length := List.toFinset_card_of_nodup h
  have h2 : l.toFinset ⊆ l2.toFinset := by
    intro x hx
    simp only [List.mem_toFinset] at hx ⊢
    exact hs hx
  calc l.length = l.toFinset.card := h1.symm
    _ ≤ l2.toFinset.card := Finset.card_le_card h2
    _ ≤ l2.length := l2.toFinset_card_le

theorem fromDecimalDigits_append (l : List Nat) (d : Nat) :
    fromDecimalDigits (l ++ [d]) = 10 * fromDecimalDigits l + d := by
  unfold fromDecimalDigits
  rw [List.foldl_append]
  simp [Nat.mul_comm]

theorem toDecimalDigitsAux_from : ∀ fuel n, n ≤ fuel →
    fromDecimalDigits (toDecimalDigitsAux fuel n) = n := by
  intro fuel
  induction fuel with
  | zero =>
    intro n hn
    have h0 : n = 0 := Nat.le_zero.mp hn
    subst h0
    rfl
  | succ f ih =>
    intro n hn
    by_cases h10 : n < 10
    · simp [toDecimalDigitsAux, h10, fromDecimalDigits]
    · have hpos : 0 < n := by omega
      have hdiv : n / 10 ≤ f := by
        have := Nat.div_lt_self hpos (by norm_num : 1 < 10)
        omega
      simp only [toDecimalDigitsAux, h10, if_false]
      rw [fromDecimalDigits_append, ih (n / 10) hdiv]
      exact Nat.div_add_mod n 10

theorem toDecimalDigitsAux_bound : ∀ fuel n d, d ∈ toDecimalDigitsAux fuel n → d < 10 := by
  intro fuel
  induction fuel with
  | zero =>
    intro n d hd
    simp only [toDecimalDigitsAux, List.mem_singleton] at hd
    subst hd
    exact Nat.mod_lt _ (by norm_num)
  | succ f ih =>
    intro n d hd
    by_cases h10 : n < 10
    · simp only [toDecimalDigitsAux, h10, if_true, List.mem_singleton] at hd
      omega
    · simp only [toDecimalDigitsAux, h10, if_false, List.mem_append,
        List.mem_singleton] at hd
      rcases hd with hd | hd
      · exact ih _ _ hd
      · subst hd
        exact Nat.mod_lt _ (by norm_num)

theorem digitChar_toNat (d : Nat) (hd : d < 10) : (digitChar d).toNat = 48 + d := by
  interval_cases d <;> decide

theorem digitChar_inj (d e : Nat) (hd : d < 10) (he : e < 10)
    (h : digitChar d = digitChar e) : d = e := by
  have h1 := digitChar_toNat d hd
  have h2 := digitChar_toNat e he
  rw [h] at h1
  omega

theorem map_digitChar_inj : ∀ l1 l2 : List Nat, (∀ d ∈ l1, d < 10) → (∀ d ∈ l2, d < 10) →
    l1.map digitChar = l2.map digitChar → l1 = l2 := by
  intro l1
  induction l1 with
  | nil =>
    intro l2 _ _ h
    cases l2 with
    | nil => rfl
    | cons b bs => simp at h
  | cons a as ih =>
    intro l2 h1 h2 h
    cases l2 with
    | nil => simp at h
    | cons b bs =>
      simp only [List.map_cons, List.cons.injEq] at h
      have ha := h1 a (List.mem_cons_self _ _)
      have hb := h2 b (List.mem_cons_self _ _)
      rw [digitChar_inj a b ha hb h.1,
        ih bs (fun d hd => h1 d (List.mem_cons_of_mem _ hd))
          (fun d hd => h2 d (List.mem_cons_of_mem _ hd)) h.2]

theorem natToStr_inj (m n : Nat) (h : natToStr m = natToStr n) : m = n := by
  unfold natToStr at h
  injection h with hdata
  have heq : toDecimalDigits m = toDecimalDigits n :=
    map_digitChar_inj _ _ (fun d hd => toDecimalDigitsAux_bound m m d hd)
      (fun d hd => toDecimalDigitsAux_bound n n d hd) hdata
  have hm := toDecimalDigitsAux_from m m (le_refl m)
  have hn := toDecimalDigitsAux_from n n (le_refl n)
  unfold toDecimalDigits at heq
  calc m = fromDecimalDigits (toDecimalDigitsAux m m) := hm.symm
    _ = fromDecimalDigits (toDecimalDigitsAux n n) := by rw [heq]
    _ = n := hn

theorem collapseAux_chars : ∀ (l : List Char) (b : Bool) (c : Char),
    c ∈ collapseAux b l → isLowerAlnum c = true ∨ c = '-' := by
  intro l
  induction l with
  | nil => intro b c hc; simp [collapseAux] at hc
  | cons x xs ih =>
    intro b c hc
    simp only [collapseAux] at hc
    by_cases hx : isLowerAlnum x = true
    · rw [if_pos hx] at hc
      rcases List.mem_cons.mp hc with h | h
      · subst h; exact Or.inl hx
      · exact ih false c h
    · rw [if_neg hx] at hc
      by_cases hb : b = true
      · rw [if_pos hb] at hc
        exact ih true c hc
      · rw [if_neg hb] at hc
        rcases List.mem_cons.mp hc with h | h
        · subst h; exact Or.inr rfl
        · exact ih true c h

theorem generateSlug_chars (t : String) (c : Char) (hc : c ∈ (generateSlug t).data) :
    isLowerAlnum c = true ∨ c = '-' := by
  unfold generateSlug at hc
  simp only [List.mem_reverse] at hc
  have h1 := (List.dropWhile_sublist (fun d => d = '-')).subset hc
  simp only [List.mem_reverse] at h1
  have h2 := (List.dropWhile_sublist (fun d => d = '-')).subset h1
  exact collapseAux_chars _ false c h2

theorem generateSlug_no_dot (t : String) : '.' ∉ (generateSlug t).data := by
  intro h
  rcases generateSlug_chars t '.' h with h1 | h1
  · exact absurd h1 (by decide)
  · exact absurd h1 (by decide)

theorem replaceFirst_append : ∀ (base : List Char) (p0 : Char) (ps : List Char),
    p0 ∉ base → replaceFirst (base ++ (p0 :: ps)) (p0 :: ps) = base := by
  intro base p0 ps
  induction base with
  | nil =>
    intro _
    simp only [List.nil_append]
    unfold replaceFirst
    rw [if_pos (List.isPrefixOf_iff_prefix.mpr (List.prefix_refl _))]
    exact List.drop_length _
  | cons c cs ih =>
    intro hnot
    have hc : ¬ p0 = c := fun h => hnot (h ▸ List.mem_cons_self c cs)
    have hrest : p0 ∉ cs := fun h => hnot (List.mem_cons_of_mem c h)
    simp only [List.cons_append]
    unfold replaceFirst
    rw [if_neg ?hpre]
    case hpre =>
      intro hpre
      rcases (List.isPrefixOf_iff_prefix.mp hpre) with ⟨tail, htail⟩
      injection htail with h1 _
      exact hc h1
    rw [ih hrest]

theorem tryAttName_succ (base ext : String) (hdot : '.' ∉ base.data) (k : Nat) :
    tryAttName base ext (k + 1) = base ++ "-" ++ natToStr (k + 1) ++ "." ++ ext := by
  unfold tryAttName
  have hdata : (base ++ "." ++ ext).data = base.data ++ ('.' :: ext.data) := by
    rw [String.data_append, String.data_append]
    simp [List.append_assoc]
  have hpat : ("." ++ ext).data = '.' :: ext.data := by
    rw [String.data_append]
    rfl
  rw [hdata, hpat, replaceFirst_append base.data '.' ext.data hdot]

theorem tryAttName_zero_data (base ext : String) :
    (tryAttName base ext 0).data = base.data ++ '.' :: ext.data := by
  unfold tryAttName
  rw [String.data_append, String.data_append]
  simp [List.append_assoc]

theorem tryAttName_succ_data (base ext : String) (hdot : '.' ∉ base.data) (k : Nat) :
    (tryAttName base ext (k + 1)).data =
      base.data ++ '-' :: ((natToStr (k + 1)).data ++ '.' :: ext.data) := by
  rw [tryAttName_succ base ext hdot k]
  rw [String.data_append, String.data_append, String.data_append, String.data_append]
  simp [List.append_assoc]

theorem tryAttName_inj (base ext : String) (hdot : '.' ∉ base.data) :
    ∀ j k, tryAttName base ext j = tryAttName base ext k → j = k := by
  intro j k h
  have hd : (tryAttName base ext j).data = (tryAttName base ext k).data := by rw [h]
  match j, k with
  | 0, 0 => rfl
  | 0, k + 1 =>
    rw [tryAttName_zero_data, tryAttName_succ_data base ext hdot] at hd
    have h2 := List.append_cancel_left hd
    injection h2 with h1 _
    exact absurd h1 (by decide)
  | j + 1, 0 =>
    rw [tryAttName_zero_data, tryAttName_succ_data base ext hdot] at hd
    have h2 := List.append_cancel_left hd
    injection h2 with h1 _
    exact absurd h1 (by decide)
  | j + 1, k + 1 =>
    rw [tryAttName_succ_data base ext hdot, tryAttName_succ_data base ext hdot] at hd
    have h2 := List.append_cancel_left hd
    injection h2 with _ h3
    have h4 := List.append_cancel_right h3
    have h5 : natToStr (j + 1) = natToStr (k + 1) := String.ext h4
    have h6 := natToStr_inj _ _ h5
    omega

theorem exists_free_tryAttName (used : List String) (base ext : String)
    (hdot : '.' ∉ base.data) :
    ∃ k, k ≤ used.length ∧ tryAttName base ext k ∉ used := by
  by_contra hcon
  push_neg at hcon
  have hnodup : ((List.range (used.length + 1)).map (tryAttName base ext)).Nodup :=
    List.Nodup.map (fun a b h => tryAttName_inj base ext hdot a b h) (List.nodup_range _)
  have hsub : ((List.range (used.length + 1)).map (tryAttName base ext)) ⊆ used := by
    intro x hx
    rcases List.mem_map.mp hx with ⟨k, hk, rfl⟩
    exact hcon k (Nat.lt_succ_iff.mp (List.mem_range.mp hk))
  have hlen := nodup_subset_length _ used hnodup hsub
  simp only [List.length_map, List.length_range] at hlen
  omega

theorem freeAttName_shape (used : List String) (base ext : String) :
    ∀ fuel k, ∃ j, freeAttName used base ext k fuel = tryAttName base ext j := by
  intro fuel
  induction fuel with
  | zero => intro k; exact ⟨k, rfl⟩
  | succ f ih =>
    intro k
    by_cases h : tryAttName base ext k ∈ used
    · rcases ih (k + 1) with ⟨j, hj⟩
      exact ⟨j, by simp [freeAttName, h, hj]⟩
    · exact ⟨k, by simp [freeAttName, h]⟩

theorem freeAttName_fresh (used : List String) (base ext : String) :
    ∀ fuel k, (∃ j, k ≤ j ∧ j < k + fuel + 1 ∧ tryAttName base ext j ∉ used) →
      freeAttName used base ext k fuel ∉ used := by
  intro fuel
  induction fuel with
  | zero =>
    intro k hex
    rcases hex with ⟨j, hkj, hlt, hfree⟩
    have hj : j = k := by omega
    subst hj
    simpa [freeAttName] using hfree
  | succ f ih =>
    intro k hex
    rcases hex with ⟨j, hkj, hlt, hfree⟩
    by_cases h : tryAttName base ext k ∈ used
    · have hne : j ≠ k := fun he => hfree (he ▸ h)
      rw [show freeAttName used base ext k (f + 1) = freeAttName used base ext (k + 1) f
        from by simp [freeAttName, h]]
      exact ih (k + 1) ⟨j, by omega, by omega, hfree⟩
    · simp [freeAttName, h]

theorem attNamesFrom_fresh : ∀ (atts : List Attachment) (index : Nat) (used : List String),
    (attNamesFrom atts index used).Nodup ∧
    ∀ nm ∈ attNamesFrom atts index used, nm ∉ used := by
  intro atts
  induction atts with
  | nil =>
    intro index used
    exact ⟨List.nodup_nil, by simp [attNamesFrom]⟩
  | cons att rest ih =>
    intro index used
    have hdot : '.' ∉ (attBase att index).data := generateSlug_no_dot _
    obtain ⟨kfree, hk, hfree⟩ := exists_free_tryAttName used (attBase att index)
      (attExt att.url) hdot
    have hfresh : freeAttName used (attBase att index) (attExt att.url) 0
        (used.length + 1) ∉ used :=
      freeAttName_fresh used (attBase att index) (attExt att.url) (used.length + 1) 0
        ⟨kfree, by omega, by omega, hfree⟩
    obtain ⟨hnodup, hnotin⟩ := ih (index + 1)
      (used ++ [freeAttName used (attBase att index) (attExt att.url) 0 (used.length + 1)])
    constructor
    · simp only [attNamesFrom]
      refine List.nodup_cons.mpr ⟨?_, hnodup⟩
      intro hmem
      exact hnotin _ hmem (List.mem_append_right _ (List.mem_singleton.mpr rfl))
    · intro nm hnm
      simp only [attNamesFrom, List.mem_cons] at hnm
      rcases hnm with rfl | hnm
      · exact hfresh
      · intro hmem
        exact hnotin nm hnm (List.mem_append_left _ hmem)

theorem buildAttachmentChildren_keys (slug : String) :
    ∀ (atts : List Attachment) (index : Nat) (used : List String),
      (buildAttachmentChildren slug atts index used).keys = attNamesFrom atts index used := by
  intro atts
  induction atts with
  | nil => intro index used; rfl
  | cons att rest ih =>
    intro index used
    simp only [buildAttachmentChildren, attNamesFrom, NodeList.keys]
    rw [ih]

theorem attNamesFrom_shape : ∀ (atts : List Attachment) (index : Nat) (used : List String)
    (i : Nat) (att : Attachment), atts[i]? = some att →
    ∃ k, (attNamesFrom atts index used)[i]? =
      some (tryAttName (attBase att (index + i)) (attExt att.url) k) := by
  intro atts
  induction atts with
  | nil => intro index used i att h; simp at h
  | cons a rest ih =>
    intro index used i att h
    cases i with
    | zero =>
      simp only [List.getElem?_cons_zero, Option.some.injEq] at h
      subst h
      obtain ⟨j, hj⟩ := freeAttName_shape used (attBase a index) (attExt a.url)
        (used.length + 1) 0
      exact ⟨j, by simp [attNamesFrom, hj]⟩
    | succ i2 =>
      simp only [List.getElem?_cons_succ] at h
      obtain ⟨k, hk⟩ := ih (index + 1)
        (used ++ [freeAttName used (attBase a index) (attExt a.url) 0 (used.length + 1)])
        i2 att h
      refine ⟨k, ?_⟩
      have harith : index + 1 + i2 = index + (i2 + 1) := by omega
      rw [harith] at hk
      simpa [attNamesFrom] using hk

/-- **C8** (attachment naming uniqueness): the keys of a built attachments
directory are pairwise distinct for every attachment list; every assigned
filename has the shape `tryAttName base ext k` — the caption slug (or
ordinal fallback) `base`, the URL-derived extension (`pdf` exactly when the
lowercased URL ends in `.pdf`, else `jpg`), and an inserted numeric suffix
for `k ≥ 1`; the suffix is absent whenever the plain `base.ext` is not
already taken; and two attachments captioned `"Shot"` with non-PDF URLs get
the sibling names `shot.jpg` and `shot-1.jpg`. -/
theorem attachment_naming :
    (∀ slug atts, (NodeList.keys (buildAttachmentChildren slug atts 0 [])).Nodup) ∧
    (∀ atts index used i att, atts[i]? = some att →
      ∃ k, (attNamesFrom atts index used)[i]? =
        some (tryAttName (attBase att (index + i)) (attExt att.url) k)) ∧
    (∀ att rest index used,
      tryAttName (attBase att index) (attExt att.url) 0 ∉ used →
      (attNamesFrom (att :: rest) index used).head? =
        some (tryAttName (attBase att index) (attExt att.url) 0)) ∧
    NodeList.keys (buildAttachmentChildren "proj"
      [⟨"https://x/a.png", "Shot", "a"⟩, ⟨"https://x/b.png", "Shot", "b"⟩] 0 []) =
      ["shot.jpg", "shot-1.jpg"] := by
  refine ⟨?_, attNamesFrom_shape, ?_, by decide⟩
  · intro slug atts
    rw [buildAttachmentChildren_keys]
    exact (attNamesFrom_fresh atts 0 []).1
  · intro att rest index used hnot
    simp [attNamesFrom, freeAttName, hnot]

/-- Witness for `attachment_naming`: distinct keys for the two-"Shot"
example and the suffix-free first name when there is no collision. -/
theorem attachment_naming_witness :
    (NodeList.keys (buildAttachmentChildren "proj"
      [⟨"https://x/a.png", "Shot", "a"⟩, ⟨"https://x/b.png", "Shot", "b"⟩] 0 [])).Nodup ∧
    (attNamesFrom [⟨"https://x/a.png", "Shot", "a"⟩] 0 []).head? =
      some (tryAttName (attBase ⟨"https://x/a.png", "Shot", "a"⟩ 0)
        (attExt "https://x/a.png") 0) :=
  ⟨attachment_naming.1 "proj" [⟨"https://x/a.png", "Shot", "a"⟩, ⟨"https://x/b.png", "Shot", "b"⟩],
   attachment_naming.2.2.1 ⟨"https://x/a.png", "Shot", "a"⟩ [] 0 [] (by decide)⟩
